import Mathlib

/-!
Verification of the aggregation-and-comparison engine of the raid dashboard
(src/dashboard.py: load_table, aggregate, compute_comparison, and the top-N
selection used by main).  Participant rows are modelled as lists of pairs,
damage values as arbitrary-precision integers (the code uses int64), and the
percentage change as an exact rational with an explicit infinity sentinel
(the code uses float64 with np.inf).
-/

/-- Lexicographic comparison of character lists by code point.  Models the
ordering pandas uses when groupby sorts string group keys (Python string
comparison is lexicographic by code point). -/
def lexLe : List Char → List Char → Bool
  | [], _ => true
  | _ :: _, [] => false
  | a :: as, b :: bs =>
    if a.toNat < b.toNat then true
    else if b.toNat < a.toNat then false
    else lexLe as bs

/-- Propositional form of lexLe on strings. -/
def strLe (a b : String) : Prop := lexLe a.data b.data = true

instance : DecidableRel strLe := fun a b =>
  inferInstanceAs (Decidable (lexLe a.data b.data = true))

/-- Uppercasing of a participant identifier, character by character.  Models
df["username"].astype(str).str.upper() in load_table (line 27 of
dashboard.py): the canonical join/group key. -/
def upperName (s : String) : String := String.mk (s.data.map Char.toUpper)

/-- The outcome of the numeric parse pd.to_numeric(. , errors="coerce") on a
raw damage cell: a numeric value, a non-numeric string (parse failure, NaN
after coercion), or an absent value (NaN). -/
inductive RawVal where
  | missing : RawVal
  | malformed : RawVal
  | num : ℚ → RawVal
deriving DecidableEq

/-- Truncation toward zero, as in numpy astype("int64") applied to a float. -/
def ratTrunc (q : ℚ) : Int := q.num.tdiv (q.den : Int)

/-- Damage coercion of load_table (line 25 of dashboard.py):
pd.to_numeric(df["damage"], errors="coerce").fillna(0).astype("int64").
Parse failures and absent values become 0; numeric values are truncated to
integers.  Total: no input raises an error. -/
def coerceDamage : RawVal → Int
  | RawVal.missing => 0
  | RawVal.malformed => 0
  | RawVal.num q => ratTrunc q

/-- load_table (lines 23-28 of dashboard.py), restricted to the columns the
engine consumes: coerce each damage cell and normalize each username to the
uppercase key. -/
def load_table (rows : List (String × RawVal)) : List (String × Int) :=
  rows.map (fun r => (upperName r.1, coerceDamage r.2))

/-- The sorted list of distinct group keys of a normalized row list.  pandas
groupby sorts group keys ascending. -/
def keyList (rows : List (String × Int)) : List String :=
  List.insertionSort strLe (rows.map Prod.fst).dedup

/-- Total damage of a key: the sum of the damage cells of the rows whose name
equals the key. -/
def totalFor (rows : List (String × Int)) (k : String) : Int :=
  ((rows.filter (fun r => r.1 == k)).map Prod.snd).sum

/-- aggregate (lines 30-33 of dashboard.py): group the normalized rows by
name and sum damage; one output row per distinct key, keys ascending. -/
def aggregate (rows : List (String × Int)) : List (String × Int) :=
  (keyList rows).map (fun k => (k, totalFor rows k))

/-- A pct_change value: either the np.inf sentinel or a finite value.  The
code stores float64; we model finite values as exact rationals. -/
inductive Pct where
  | inf : Pct
  | fin : ℚ → Pct
deriving DecidableEq

/-- pct_row (lines 44-51 of dashboard.py): if prev > 0 the exact value of
(last - prev) / prev * 100.0, written Rat.divInt ((last - prev) * 100) prev
so that it is kernel-computable; if prev == 0 and last > 0 the inf sentinel;
otherwise 0. -/
def pct_row (pv ls : Int) : Pct :=
  if 0 < pv then Pct.fin (Rat.divInt ((ls - pv) * 100) pv)
  else if pv = 0 ∧ 0 < ls then Pct.inf
  else Pct.fin 0

/-- label_row (lines 55-62 of dashboard.py): inf gives new, then positive
gives up, negative gives down, zero gives same. -/
def label_row : Pct → String
  | Pct.inf => ("new")
  | Pct.fin q => if 0 < q then ("up") else if q < 0 then ("down") else ("same")

/-- One row of the comparison table produced by compute_comparison. -/
structure CompRow where
  name : String
  prev_damage : Int
  last_damage : Int
  pct_change : Pct
  change : String
deriving DecidableEq

/-- The sort key used at line 64 of dashboard.py: pct_change with the inf
sentinel replaced by the finite value 1e18; finite values unchanged. -/
def sortKey : Pct → ℚ
  | Pct.inf => 1000000000000000000
  | Pct.fin q => q

/-- Build one comparison row from a merged entry. -/
def mkRow (n : String) (pv ls : Int) : CompRow :=
  ⟨n, pv, ls, pct_row pv ls, label_row (pct_row pv ls)⟩

/-- pd.merge(a, b, on="name", how="outer").fillna(0) (line 39 of
dashboard.py) on two aggregated tables: every key of a paired with its b
value or 0, then the keys of b absent from a with prev value 0. -/
def mergeRows (a b : List (String × Int)) : List (String × Int × Int) :=
  a.map (fun p => (p.1, p.2, (b.lookup p.1).getD 0)) ++
    (b.filter (fun q => (a.lookup q.1).isNone)).map (fun q => (q.1, 0, q.2))

/-- Descending comparison of rows by substituted sort key (line 64 of
dashboard.py: sort_values by pct_change, ascending=False, key replacing
np.inf with 1e18). -/
def rowGe (r s : CompRow) : Prop := sortKey s.pct_change ≤ sortKey r.pct_change

instance : DecidableRel rowGe := fun r s =>
  inferInstanceAs (Decidable (sortKey s.pct_change ≤ sortKey r.pct_change))

/-- compute_comparison (lines 35-65 of dashboard.py): aggregate both
snapshots, outer-join on name with 0 for a missing side, compute pct_change
and the trend label per row, and sort by pct_change descending with the inf
sentinel replaced by 1e18 in the sort key only. -/
def compute_comparison (prevRows lastRows : List (String × Int)) : List CompRow :=
  List.insertionSort rowGe
    ((mergeRows (aggregate prevRows) (aggregate lastRows)).map
      (fun t => mkRow t.1 t.2.1 t.2.2))

/-- Top-N selection (lines 185 and 267 of dashboard.py):
rows.head(n) if n > 0 else rows. -/
def topN {α : Type} (n : Nat) (rows : List α) : List α :=
  if 0 < n then rows.take n else rows

/-- Two identifiers differ only in letter case: same length and, position by
position, the characters agree after case folding. -/
def differOnlyInCase (a b : String) : Prop :=
  List.Forall₂ (fun c d => c.toUpper = d.toUpper) a.data b.data

/-! ### Order lemmas for the string comparison -/

theorem lexLe_cons_iff (a b : Char) (as bs : List Char) :
    lexLe (a :: as) (b :: bs) = true ↔
      a.toNat < b.toNat ∨ (a.toNat = b.toNat ∧ lexLe as bs = true) := by
  show (if a.toNat < b.toNat then true
      else if b.toNat < a.toNat then false else lexLe as bs) = true ↔ _
  split_ifs with h1 h2
  · simp [h1]
  · constructor
    · intro h; cases h
    · intro h
      rcases h with h | ⟨h, _⟩ <;> omega
  · have heq : a.toNat = b.toNat := by omega
    simp [heq, h1]

theorem lexLe_total : ∀ (x y : List Char), lexLe x y = true ∨ lexLe y x = true
  | [], _ => Or.inl rfl
  | _ :: _, [] => Or.inr rfl
  | a :: as, b :: bs => by
    rcases Nat.lt_trichotomy a.toNat b.toNat with h | h | h
    · exact Or.inl ((lexLe_cons_iff a b as bs).mpr (Or.inl h))
    · rcases lexLe_total as bs with ih | ih
      · exact Or.inl ((lexLe_cons_iff a b as bs).mpr (Or.inr ⟨h, ih⟩))
      · exact Or.inr ((lexLe_cons_iff b a bs as).mpr (Or.inr ⟨h.symm, ih⟩))
    · exact Or.inr ((lexLe_cons_iff b a bs as).mpr (Or.inl h))

theorem lexLe_trans : ∀ {x y z : List Char},
    lexLe x y = true → lexLe y z = true → lexLe x z = true
  | [], _, _, _, _ => rfl
  | _ :: _, [], _, h1, _ => by simp [lexLe] at h1
  | _ :: _, _ :: _, [], _, h2 => by simp [lexLe] at h2
  | a :: as, b :: bs, c :: cs, h1, h2 => by
    rcases (lexLe_cons_iff a b as bs).mp h1 with h | ⟨heq1, hrec1⟩
    · rcases (lexLe_cons_iff b c bs cs).mp h2 with h2c | ⟨heq2, _⟩
      · exact (lexLe_cons_iff a c as cs).mpr (Or.inl (h.trans h2c))
      · exact (lexLe_cons_iff a c as cs).mpr (Or.inl (heq2 ▸ h))
    · rcases (lexLe_cons_iff b c bs cs).mp h2 with h2c | ⟨heq2, hrec2⟩
      · exact (lexLe_cons_iff a c as cs).mpr (Or.inl (heq1 ▸ h2c))
      · exact (lexLe_cons_iff a c as cs).mpr
          (Or.inr ⟨heq1.trans heq2, lexLe_trans hrec1 hrec2⟩)

theorem lexLe_antisymm : ∀ {x y : List Char},
    lexLe x y = true → lexLe y x = true → x = y
  | [], [], _, _ => rfl
  | [], _ :: _, _, h2 => by simp [lexLe] at h2
  | _ :: _, [], h1, _ => by simp [lexLe] at h1
  | a :: as, b :: bs, h1, h2 => by
    rcases (lexLe_cons_iff a b as bs).mp h1 with h | ⟨heq1, hrec1⟩
    · rcases (lexLe_cons_iff b a bs as).mp h2 with h2c | ⟨heq2, _⟩ <;> omega
    · rcases (lexLe_cons_iff b a bs as).mp h2 with h2c | ⟨heq2, hrec2⟩
      · omega
      · have hc : a = b := Char.ext (UInt32.ext heq1)
        rw [hc, lexLe_antisymm hrec1 hrec2]

instance : IsTotal String strLe := ⟨fun a b => lexLe_total a.data b.data⟩

instance : IsTrans String strLe := ⟨fun _ _ _ h1 h2 => lexLe_trans h1 h2⟩

instance : IsAntisymm String strLe := ⟨fun a b h1 h2 => by
  cases a; cases b; exact congrArg String.mk (lexLe_antisymm h1 h2)⟩

instance : IsTotal CompRow rowGe :=
  ⟨fun a b => le_total (sortKey b.pct_change) (sortKey a.pct_change)⟩

instance : IsTrans CompRow rowGe := ⟨fun _ _ _ h1 h2 => le_trans h2 h1⟩

/-! ### Aggregation lemmas -/

theorem mem_keyList {rows : List (String × Int)} {k : String} :
    k ∈ keyList rows ↔ k ∈ rows.map Prod.fst := by
  unfold keyList
  rw [List.mem_insertionSort, List.mem_dedup]

theorem nodup_keyList (rows : List (String × Int)) : (keyList rows).Nodup :=
  ((List.perm_insertionSort strLe _).nodup_iff).mpr (List.nodup_dedup _)

theorem keyList_perm {l1 l2 : List (String × Int)} (h : l1.Perm l2) :
    keyList l1 = keyList l2 := by
  apply List.eq_of_perm_of_sorted (r := strLe)
  · exact (List.perm_insertionSort strLe _).trans
      (((h.map Prod.fst).dedup).trans (List.perm_insertionSort strLe _).symm)
  · exact List.sorted_insertionSort strLe _
  · exact List.sorted_insertionSort strLe _

theorem totalFor_perm {l1 l2 : List (String × Int)} (h : l1.Perm l2) (k : String) :
    totalFor l1 k = totalFor l2 k :=
  ((h.filter _).map Prod.snd).sum_eq

theorem totalFor_of_not_mem {rows : List (String × Int)} {k : String}
    (h : k ∉ rows.map Prod.fst) : totalFor rows k = 0 := by
  unfold totalFor
  have hnil : rows.filter (fun r => r.1 == k) = [] := by
    apply List.filter_eq_nil_iff.mpr
    intro r hr
    simp only [beq_iff_eq]
    intro hrk
    exact h (List.mem_map.mpr ⟨r, hr, hrk⟩)
  rw [hnil]
  rfl

theorem aggregate_map_fst (rows : List (String × Int)) :
    (aggregate rows).map Prod.fst = keyList rows := by
  unfold aggregate
  rw [List.map_map]
  exact List.map_id _

theorem mem_aggregate {rows : List (String × Int)} {pr : String × Int} :
    pr ∈ aggregate rows ↔ pr.1 ∈ rows.map Prod.fst ∧ pr.2 = totalFor rows pr.1 := by
  unfold aggregate
  rw [List.mem_map]
  constructor
  · rintro ⟨k, hk, rfl⟩
    exact ⟨mem_keyList.mp hk, rfl⟩
  · rintro ⟨h1, h2⟩
    refine ⟨pr.1, mem_keyList.mpr h1, ?_⟩
    obtain ⟨x, y⟩ := pr
    simp only at h2
    rw [h2]

theorem lookup_map_graph (f : String → Int) :
    ∀ (ks : List String) (k : String),
      (ks.map (fun x => (x, f x))).lookup k =
        if k ∈ ks then some (f k) else none
  | [], k => by simp [List.lookup]
  | x :: ks, k => by
    by_cases hk : k = x
    · subst hk
      simp [List.lookup]
    · have hb : (k == x) = false := beq_eq_false_iff_ne.mpr hk
      simp only [List.map_cons, List.lookup, hb, List.mem_cons]
      rw [lookup_map_graph f ks k]
      by_cases hm : k ∈ ks
      · rw [if_pos hm, if_pos (Or.inr hm)]
      · rw [if_neg hm, if_neg (by rintro (h | h) <;> [exact hk h; exact hm h])]

theorem aggregate_lookup (rows : List (String × Int)) (k : String) :
    ((aggregate rows).lookup k).getD 0 = totalFor rows k := by
  unfold aggregate
  rw [lookup_map_graph]
  by_cases h : k ∈ keyList rows
  · rw [if_pos h]
    rfl
  · rw [if_neg h, totalFor_of_not_mem (fun hc => h (mem_keyList.mpr hc))]
    rfl

theorem aggregate_lookup_isNone {rows : List (String × Int)} {k : String} :
    ((aggregate rows).lookup k).isNone = true ↔ k ∉ rows.map Prod.fst := by
  unfold aggregate
  rw [lookup_map_graph]
  by_cases h : k ∈ keyList rows
  · rw [if_pos h]
    simp [mem_keyList.mp h]
  · rw [if_neg h]
    simp only [Option.isNone_none, true_iff]
    exact fun hc => h (mem_keyList.mpr hc)

/-! ### Shape of the comparison rows -/

theorem comp_mem_shape {p l : List (String × Int)} {r : CompRow}
    (h : r ∈ compute_comparison p l) :
    r.prev_damage = totalFor p r.name ∧ r.last_damage = totalFor l r.name ∧
      r.pct_change = pct_row r.prev_damage r.last_damage ∧
      r.change = label_row (pct_row r.prev_damage r.last_damage) := by
  unfold compute_comparison at h
  rw [List.mem_insertionSort, List.mem_map] at h
  obtain ⟨t, ht, rfl⟩ := h
  unfold mergeRows at ht
  rw [List.mem_append] at ht
  rcases ht with ht | ht
  · rw [List.mem_map] at ht
    obtain ⟨x, hx, rfl⟩ := ht
    obtain ⟨hx1, hx2⟩ := mem_aggregate.mp hx
    simp only [mkRow]
    exact ⟨hx2, aggregate_lookup l x.1, trivial, trivial⟩
  · rw [List.mem_map] at ht
    obtain ⟨y, hy, rfl⟩ := ht
    rw [List.mem_filter] at hy
    obtain ⟨hyb, hynone⟩ := hy
    obtain ⟨hy1, hy2⟩ := mem_aggregate.mp hyb
    simp only [mkRow]
    exact ⟨(totalFor_of_not_mem (aggregate_lookup_isNone.mp hynone)).symm, hy2,
      trivial, trivial⟩

theorem comp_names_mem {p l : List (String × Int)} {k : String} :
    k ∈ (compute_comparison p l).map CompRow.name ↔
      k ∈ (aggregate p).map Prod.fst ∨ k ∈ (aggregate l).map Prod.fst := by
  unfold compute_comparison
  rw [((List.perm_insertionSort rowGe _).map CompRow.name).mem_iff, List.map_map]
  have hfun : (CompRow.name ∘ fun t : String × Int × Int => mkRow t.1 t.2.1 t.2.2) =
      (fun t : String × Int × Int => t.1) := rfl
  rw [hfun]
  unfold mergeRows
  rw [List.map_append, List.map_map, List.map_map, List.mem_append]
  have hl : ((fun t : String × Int × Int => t.1) ∘
      fun q : String × Int => (q.1, q.2, ((aggregate l).lookup q.1).getD 0)) =
      (Prod.fst : String × Int → String) := rfl
  have hr : ((fun t : String × Int × Int => t.1) ∘
      fun q : String × Int => (q.1, 0, q.2)) =
      (Prod.fst : String × Int → String) := rfl
  rw [hl, hr]
  constructor
  · rintro (h | h)
    · exact Or.inl h
    · right
      rw [List.mem_map] at h ⊢
      obtain ⟨y, hy, rfl⟩ := h
      exact ⟨y, (List.mem_filter.mp hy).1, rfl⟩
  · rintro (h | h)
    · exact Or.inl h
    · by_cases hp : k ∈ (aggregate p).map Prod.fst
      · exact Or.inl hp
      · right
        rw [List.mem_map] at h ⊢
        obtain ⟨y, hy, rfl⟩ := h
        refine ⟨y, List.mem_filter.mpr ⟨hy, ?_⟩, rfl⟩
        apply aggregate_lookup_isNone.mpr
        intro hc
        exact hp (by rw [aggregate_map_fst]; exact mem_keyList.mpr hc)

theorem comp_names_nodup (p l : List (String × Int)) :
    ((compute_comparison p l).map CompRow.name).Nodup := by
  unfold compute_comparison
  apply ((List.perm_insertionSort rowGe _).map CompRow.name).nodup_iff.mpr
  rw [List.map_map]
  have hfun : (CompRow.name ∘ fun t : String × Int × Int => mkRow t.1 t.2.1 t.2.2) =
      (fun t : String × Int × Int => t.1) := rfl
  rw [hfun]
  unfold mergeRows
  rw [List.map_append, List.map_map, List.map_map]
  have hl : ((fun t : String × Int × Int => t.1) ∘
      fun q : String × Int => (q.1, q.2, ((aggregate l).lookup q.1).getD 0)) =
      (Prod.fst : String × Int → String) := rfl
  have hr : ((fun t : String × Int × Int => t.1) ∘
      fun q : String × Int => (q.1, 0, q.2)) =
      (Prod.fst : String × Int → String) := rfl
  rw [hl, hr]
  apply List.Nodup.append
  · rw [aggregate_map_fst]
    exact nodup_keyList p
  · apply List.Nodup.sublist ((List.filter_sublist _).map Prod.fst)
    rw [aggregate_map_fst]
    exact nodup_keyList l
  · intro k hk1 hk2
    rw [List.mem_map] at hk2
    obtain ⟨y, hy, rfl⟩ := hk2
    have hnone := aggregate_lookup_isNone.mp (List.mem_filter.mp hy).2
    rw [aggregate_map_fst] at hk1
    exact hnone (mem_keyList.mp hk1)

/-! ### Case lemmas for pct_row and label_row -/

theorem pct_row_pos {pv : Int} (ls : Int) (h : 0 < pv) :
    pct_row pv ls = Pct.fin (((ls : ℚ) - (pv : ℚ)) / (pv : ℚ) * 100) := by
  unfold pct_row
  rw [if_pos h]
  congr 1
  rw [Rat.divInt_eq_div]
  have hpv : (pv : ℚ) ≠ 0 := Int.cast_ne_zero.mpr (ne_of_gt h)
  push_cast
  field_simp

theorem pct_row_new {pv ls : Int} (h0 : pv = 0) (hl : 0 < ls) :
    pct_row pv ls = Pct.inf := by
  unfold pct_row
  rw [if_neg (by omega), if_pos ⟨h0, hl⟩]

theorem pct_row_rest {pv ls : Int} (h0 : pv = 0) (hl : ls ≤ 0) :
    pct_row pv ls = Pct.fin 0 := by
  unfold pct_row
  rw [if_neg (by omega), if_neg (by rintro ⟨_, hc⟩; omega)]

theorem label_row_new {pc : Pct} : label_row pc = ("new") ↔ pc = Pct.inf := by
  cases pc with
  | inf => simp [label_row]
  | fin q =>
    constructor
    · intro h
      simp only [label_row] at h
      split_ifs at h <;> exact absurd h (by decide)
    · intro h
      exact Pct.noConfusion h

theorem label_row_up {pc : Pct} :
    label_row pc = ("up") ↔ ∃ q, pc = Pct.fin q ∧ 0 < q := by
  cases pc with
  | inf =>
    constructor
    · intro h
      exact absurd h (by decide)
    · rintro ⟨q0, hq, _⟩
      exact Pct.noConfusion hq
  | fin q =>
    constructor
    · intro h
      simp only [label_row] at h
      split_ifs at h with h1 h2
      · exact ⟨q, rfl, h1⟩
      · exact absurd h (by decide)
      · exact absurd h (by decide)
    · rintro ⟨q0, hq, hpos⟩
      have hqq : q = q0 := by injection hq
      subst hqq
      simp only [label_row]
      rw [if_pos hpos]

theorem label_row_down {pc : Pct} :
    label_row pc = ("down") ↔ ∃ q, pc = Pct.fin q ∧ q < 0 := by
  cases pc with
  | inf =>
    constructor
    · intro h
      exact absurd h (by decide)
    · rintro ⟨q0, hq, _⟩
      exact Pct.noConfusion hq
  | fin q =>
    constructor
    · intro h
      simp only [label_row] at h
      split_ifs at h with h1 h2
      · exact absurd h (by decide)
      · exact ⟨q, rfl, h2⟩
      · exact absurd h (by decide)
    · rintro ⟨q0, hq, hneg⟩
      have hqq : q = q0 := by injection hq
      subst hqq
      simp only [label_row]
      rw [if_neg (not_lt.mpr hneg.le), if_pos hneg]

theorem label_row_same {pc : Pct} :
    label_row pc = ("same") ↔ pc = Pct.fin 0 := by
  cases pc with
  | inf =>
    constructor
    · intro h
      exact absurd h (by decide)
    · intro h
      exact Pct.noConfusion h
  | fin q =>
    constructor
    · intro h
      simp only [label_row] at h
      split_ifs at h with h1 h2
      · exact absurd h (by decide)
      · exact absurd h (by decide)
      · have hq : q = 0 := le_antisymm (not_lt.mp h1) (not_lt.mp h2)
        rw [hq]
    · intro h
      have hq : q = 0 := by injection h
      subst hq
      decide

theorem label_row_cases (pc : Pct) :
    label_row pc = ("new") ∨ label_row pc = ("up") ∨
      label_row pc = ("down") ∨ label_row pc = ("same") := by
  cases pc with
  | inf => exact Or.inl rfl
  | fin q =>
    simp only [label_row]
    split_ifs
    · exact Or.inr (Or.inl rfl)
    · exact Or.inr (Or.inr (Or.inl rfl))
    · exact Or.inr (Or.inr (Or.inr rfl))

theorem comp_sorted (p l : List (String × Int)) :
    (compute_comparison p l).Sorted rowGe :=
  List.sorted_insertionSort rowGe _

/-! ### Claims -/

/-- C1: for every comparison row with previous aggregate damage prev and
current aggregate damage last: if prev > 0 then pct_change is the exact value
of (last - prev) / prev * 100; if prev = 0 and last > 0 then pct_change is
the positive-infinity sentinel; if prev = 0 and last = 0 then pct_change
is 0. -/
theorem pct_change_rule (p l : List (String × Int)) (r : CompRow)
    (h : r ∈ compute_comparison p l) :
    (0 < r.prev_damage → r.pct_change =
      Pct.fin (((r.last_damage : ℚ) - (r.prev_damage : ℚ)) / (r.prev_damage : ℚ) * 100)) ∧
    (r.prev_damage = 0 → 0 < r.last_damage → r.pct_change = Pct.inf) ∧
    (r.prev_damage = 0 → r.last_damage = 0 → r.pct_change = Pct.fin 0) := by
  obtain ⟨hp, hl, hpct, hch⟩ := comp_mem_shape h
  refine ⟨?_, ?_, ?_⟩
  · intro hpos
    rw [hpct, pct_row_pos _ hpos]
  · intro h0 hlast
    rw [hpct, pct_row_new h0 hlast]
  · intro h0 hlast
    rw [hpct, pct_row_rest h0 (le_of_eq hlast)]

/-- C1 witness: the percentage rule evaluated on the concrete comparison of
snapshots A:100 and A:150, whose only row is A with pct_change +50. -/
theorem pct_change_rule_witness :
    (⟨("A"), 100, 150, Pct.fin 50, ("up")⟩ : CompRow) ∈
        compute_comparison [(("A"), 100)] [(("A"), 150)] ∧
      (⟨("A"), 100, 150, Pct.fin 50, ("up")⟩ : CompRow).pct_change =
        Pct.fin ((((150 : Int) : ℚ) - ((100 : Int) : ℚ)) / ((100 : Int) : ℚ) * 100) :=
  ⟨by decide, (pct_change_rule [(("A"), 100)] [(("A"), 150)] _ (by decide)).1 (by decide)⟩

/-- C2: the trend label of every comparison row is determined by pct_change,
and the four labels are mutually exclusive and exhaustive: new iff the
sentinel, up iff finite positive, down iff negative, same iff zero, and every
row carries one of the four labels. -/
theorem trend_classification (p l : List (String × Int)) (r : CompRow)
    (h : r ∈ compute_comparison p l) :
    (r.change = ("new") ↔ r.pct_change = Pct.inf) ∧
    (r.change = ("up") ↔ ∃ q, r.pct_change = Pct.fin q ∧ 0 < q) ∧
    (r.change = ("down") ↔ ∃ q, r.pct_change = Pct.fin q ∧ q < 0) ∧
    (r.change = ("same") ↔ r.pct_change = Pct.fin 0) ∧
    (r.change = ("new") ∨ r.change = ("up") ∨ r.change = ("down") ∨
      r.change = ("same")) := by
  obtain ⟨hp, hl, hpct, hch⟩ := comp_mem_shape h
  rw [hch, ← hpct]
  exact ⟨label_row_new, label_row_up, label_row_down, label_row_same, label_row_cases _⟩

/-- C2 witness: the classification evaluated on the row A (prev 100,
last 150, pct_change +50) of a concrete comparison. -/
theorem trend_classification_witness :
    (⟨("A"), 100, 150, Pct.fin 50, ("up")⟩ : CompRow) ∈
        compute_comparison [(("A"), 100)] [(("A"), 150)] ∧
      (((⟨("A"), 100, 150, Pct.fin 50, ("up")⟩ : CompRow).change = ("new") ↔
        (⟨("A"), 100, 150, Pct.fin 50, ("up")⟩ : CompRow).pct_change = Pct.inf) ∧
      ((⟨("A"), 100, 150, Pct.fin 50, ("up")⟩ : CompRow).change = ("up") ↔
        ∃ q, (⟨("A"), 100, 150, Pct.fin 50, ("up")⟩ : CompRow).pct_change = Pct.fin q ∧ 0 < q) ∧
      ((⟨("A"), 100, 150, Pct.fin 50, ("up")⟩ : CompRow).change = ("down") ↔
        ∃ q, (⟨("A"), 100, 150, Pct.fin 50, ("up")⟩ : CompRow).pct_change = Pct.fin q ∧ q < 0) ∧
      ((⟨("A"), 100, 150, Pct.fin 50, ("up")⟩ : CompRow).change = ("same") ↔
        (⟨("A"), 100, 150, Pct.fin 50, ("up")⟩ : CompRow).pct_change = Pct.fin 0) ∧
      ((⟨("A"), 100, 150, Pct.fin 50, ("up")⟩ : CompRow).change = ("new") ∨
        (⟨("A"), 100, 150, Pct.fin 50, ("up")⟩ : CompRow).change = ("up") ∨
        (⟨("A"), 100, 150, Pct.fin 50, ("up")⟩ : CompRow).change = ("down") ∨
        (⟨("A"), 100, 150, Pct.fin 50, ("up")⟩ : CompRow).change = ("same"))) :=
  ⟨by decide, trend_classification [(("A"), 100)] [(("A"), 150)] _ (by decide)⟩

/-- C3: the key set of the comparison result is exactly the union of the two
aggregates' key sets, with exactly one row per canonical identifier (the name
column has no duplicates); each side's damage equals the aggregate total of
that side, which is the lookup value when the key is present and 0 when
absent. -/
theorem outer_join_complete (p l : List (String × Int)) :
    ((compute_comparison p l).map CompRow.name).Nodup ∧
    (∀ k, k ∈ (compute_comparison p l).map CompRow.name ↔
      (k ∈ (aggregate p).map Prod.fst ∨ k ∈ (aggregate l).map Prod.fst)) ∧
    (∀ r, r ∈ compute_comparison p l →
      r.prev_damage = totalFor p r.name ∧ r.last_damage = totalFor l r.name ∧
      r.prev_damage = ((aggregate p).lookup r.name).getD 0 ∧
      r.last_damage = ((aggregate l).lookup r.name).getD 0) := by
  refine ⟨comp_names_nodup p l, fun k => comp_names_mem, fun r hr => ?_⟩
  obtain ⟨hp, hl, _, _⟩ := comp_mem_shape hr
  exact ⟨hp, hl, by rw [hp, aggregate_lookup], by rw [hl, aggregate_lookup]⟩

/-- C3 witness: the outer-join facts evaluated on the comparison of the
disjoint snapshots A:1 and B:2, at the row of B (absent from the previous
side, so prev_damage 0). -/
theorem outer_join_complete_witness :
    (⟨("B"), 0, 2, Pct.inf, ("new")⟩ : CompRow) ∈
        compute_comparison [(("A"), 1)] [(("B"), 2)] ∧
      ((⟨("B"), 0, 2, Pct.inf, ("new")⟩ : CompRow).prev_damage =
        totalFor [(("A"), 1)] (⟨("B"), 0, 2, Pct.inf, ("new")⟩ : CompRow).name ∧
      (⟨("B"), 0, 2, Pct.inf, ("new")⟩ : CompRow).last_damage =
        totalFor [(("B"), 2)] (⟨("B"), 0, 2, Pct.inf, ("new")⟩ : CompRow).name ∧
      (⟨("B"), 0, 2, Pct.inf, ("new")⟩ : CompRow).prev_damage =
        ((aggregate [(("A"), 1)]).lookup (⟨("B"), 0, 2, Pct.inf, ("new")⟩ : CompRow).name).getD 0 ∧
      (⟨("B"), 0, 2, Pct.inf, ("new")⟩ : CompRow).last_damage =
        ((aggregate [(("B"), 2)]).lookup (⟨("B"), 0, 2, Pct.inf, ("new")⟩ : CompRow).name).getD 0) :=
  ⟨by decide, (outer_join_complete [(("A"), 1)] [(("B"), 2)]).2.2 _ (by decide)⟩

/-- C4 counterexample: the claim that every new row sorts ahead of every row
with finite positive pct_change is false.  With previous snapshot A:1 and
current snapshot A:100000000000000000, B:5, the row of A has the finite
positive pct_change 9999999999999999900, which exceeds the 1e18 substitute
used for the sentinel, so A sorts ahead of the new row B. -/
theorem trend_sort_order_counterexample :
    compute_comparison [(("A"), 1)] [(("A"), 100000000000000000), (("B"), 5)] =
      [⟨("A"), 1, 100000000000000000, Pct.fin 9999999999999999900, ("up")⟩,
       ⟨("B"), 0, 5, Pct.inf, ("new")⟩] := by decide

/-- C4 (amended): the output is ordered by pct_change descending with the
infinity sentinel replaced by the finite value 1e18 in the comparison key
only; the stored pct_change of a new row remains the sentinel (and its sort
key is exactly 1e18); and every new row sorts ahead of every row whose
finite pct_change is below 1e18 (a finite pct_change of at least 1e18 can
sort ahead of new rows). -/
theorem trend_sort_order (p l : List (String × Int)) :
    (compute_comparison p l).Sorted rowGe ∧
    (∀ r ∈ compute_comparison p l, r.change = ("new") →
      r.pct_change = Pct.inf ∧ sortKey r.pct_change = 1000000000000000000) ∧
    (∀ i j : Fin (compute_comparison p l).length, i < j → ∀ q : ℚ,
      ((compute_comparison p l).get i).pct_change = Pct.fin q →
      q < 1000000000000000000 →
      ((compute_comparison p l).get j).pct_change ≠ Pct.inf) := by
  refine ⟨comp_sorted p l, ?_, ?_⟩
  · intro r hr hnew
    obtain ⟨_, _, hpct, hch⟩ := comp_mem_shape hr
    have hch2 : r.change = label_row r.pct_change := by rw [hch, hpct]
    rw [hch2] at hnew
    have hinf := label_row_new.mp hnew
    exact ⟨hinf, by rw [hinf]; rfl⟩
  · intro i j hij q hq hlt hinf
    have hrel := (comp_sorted p l).rel_get_of_lt hij
    unfold rowGe at hrel
    rw [hq, hinf] at hrel
    simp only [sortKey] at hrel
    exact absurd hrel (not_le.mpr hlt)

/-- C4 witness: the amended ordering facts on the comparison of A:100, B:100
against A:150, B:50, C:10, whose sorted output is C (new), A (up), B (down):
the new row C keeps the sentinel with sort key 1e18, and the finite row at
index 1 (pct_change 50 below 1e18) forces index 2 not to be a new row. -/
theorem trend_sort_order_witness :
    (⟨("C"), 0, 10, Pct.inf, ("new")⟩ : CompRow) ∈
        compute_comparison [(("A"), 100), (("B"), 100)]
          [(("A"), 150), (("B"), 50), (("C"), 10)] ∧
      ((⟨("C"), 0, 10, Pct.inf, ("new")⟩ : CompRow).pct_change = Pct.inf ∧
        sortKey (⟨("C"), 0, 10, Pct.inf, ("new")⟩ : CompRow).pct_change =
          1000000000000000000) ∧
      ((compute_comparison [(("A"), 100), (("B"), 100)]
          [(("A"), 150), (("B"), 50), (("C"), 10)]).get
        ⟨2, by decide⟩).pct_change ≠ Pct.inf :=
  ⟨by decide,
    (trend_sort_order [(("A"), 100), (("B"), 100)]
      [(("A"), 150), (("B"), 50), (("C"), 10)]).2.1 _ (by decide) (by decide),
    (trend_sort_order [(("A"), 100), (("B"), 100)]
      [(("A"), 150), (("B"), 50), (("C"), 10)]).2.2
        ⟨1, by decide⟩ ⟨2, by decide⟩ (by decide) 50 (by decide) (by decide)⟩

/-- C5 counterexample: with an empty previous snapshot it is not true that
every participant of the current snapshot is classified new: a current
participant with damage 0 gets pct_change 0 and is classified same. -/
theorem empty_snapshots_counterexample :
    compute_comparison [] [(("A"), 0)] =
      [⟨("A"), 0, 0, Pct.fin 0, ("same")⟩] := by decide

/-- C5 (amended): with an empty previous snapshot every comparison row has
prev_damage 0, every current participant with positive aggregate damage is
classified new, and one with zero or negative aggregate damage is classified
same; with an empty current snapshot every previous participant has
last_damage 0 and, when its previous damage is positive, pct_change -100 and
label down; with both snapshots empty the result is empty (and no case
raises an error: the function is total). -/
theorem empty_snapshots :
    (∀ (cur : List (String × Int)) (r : CompRow), r ∈ compute_comparison [] cur →
      r.prev_damage = 0 ∧ (0 < r.last_damage → r.change = ("new")) ∧
        (r.last_damage ≤ 0 → r.change = ("same"))) ∧
    (∀ (prev : List (String × Int)) (r : CompRow), r ∈ compute_comparison prev [] →
      r.last_damage = 0 ∧ (0 < r.prev_damage →
        r.pct_change = Pct.fin (-100) ∧ r.change = ("down"))) ∧
    compute_comparison [] [] = [] := by
  refine ⟨?_, ?_, rfl⟩
  · intro cur r hr
    obtain ⟨hp, _, hpct, hch⟩ := comp_mem_shape hr
    have hp0 : r.prev_damage = 0 := by rw [hp]; rfl
    refine ⟨hp0, ?_, ?_⟩
    · intro hpos
      rw [hch, pct_row_new hp0 hpos]
      rfl
    · intro hle
      rw [hch, pct_row_rest hp0 hle]
      decide
  · intro prev r hr
    obtain ⟨_, hl, hpct, hch⟩ := comp_mem_shape hr
    have hl0 : r.last_damage = 0 := by rw [hl]; rfl
    refine ⟨hl0, ?_⟩
    intro hpos
    have hpct2 : pct_row r.prev_damage r.last_damage = Pct.fin (-100) := by
      rw [hl0, pct_row_pos 0 hpos]
      congr 1
      have hpv : (r.prev_damage : ℚ) ≠ 0 := Int.cast_ne_zero.mpr (ne_of_gt hpos)
      push_cast
      field_simp
    constructor
    · rw [hpct, hpct2]
    · rw [hch, hpct2]
      decide

/-- C5 witness: with previous empty and current A:5 the row of A is
classified new; with previous B:4 and current empty the row of B has
last_damage 0, pct_change -100 and label down. -/
theorem empty_snapshots_witness :
    (⟨("A"), 0, 5, Pct.inf, ("new")⟩ : CompRow) ∈ compute_comparison [] [(("A"), 5)] ∧
      (⟨("A"), 0, 5, Pct.inf, ("new")⟩ : CompRow).change = ("new") ∧
      (⟨("B"), 4, 0, Pct.fin (-100), ("down")⟩ : CompRow) ∈
        compute_comparison [(("B"), 4)] [] ∧
      ((⟨("B"), 4, 0, Pct.fin (-100), ("down")⟩ : CompRow).pct_change = Pct.fin (-100) ∧
        (⟨("B"), 4, 0, Pct.fin (-100), ("down")⟩ : CompRow).change = ("down")) :=
  ⟨by decide,
    ((empty_snapshots.1 [(("A"), 5)] _ (by decide)).2.1 (by decide)),
    by decide,
    ((empty_snapshots.2.1 [(("B"), 4)] _ (by decide)).2 (by decide))⟩

theorem map_toUpper_eq_of_forall2 {xs ys : List Char}
    (h : List.Forall₂ (fun c d => c.toUpper = d.toUpper) xs ys) :
    xs.map Char.toUpper = ys.map Char.toUpper := by
  induction h with
  | nil => rfl
  | cons h1 _ ih => rw [List.map_cons, List.map_cons, h1, ih]

/-- C6: identifiers that differ only in letter case map to the same
uppercased canonical key; two rows whose identifiers differ only in case are
summed into a single aggregate row; in particular the rows (foo, 3) and
(FOO, 4) aggregate to the single row (FOO, 7). -/
theorem case_insensitive_grouping :
    (∀ a b : String, differOnlyInCase a b → upperName a = upperName b) ∧
    (∀ (u v : String) (q1 q2 : ℚ), differOnlyInCase u v →
      aggregate (load_table [(u, RawVal.num q1), (v, RawVal.num q2)]) =
        [(upperName u, ratTrunc q1 + ratTrunc q2)]) ∧
    aggregate (load_table [(("foo"), RawVal.num 3), (("FOO"), RawVal.num 4)]) =
      [(("FOO"), 7)] := by
  have hupper : ∀ a b : String, differOnlyInCase a b → upperName a = upperName b := by
    intro a b h
    unfold differOnlyInCase at h
    unfold upperName
    congr 1
    exact map_toUpper_eq_of_forall2 h
  refine ⟨hupper, ?_, by decide⟩
  intro u v q1 q2 h
  have he := hupper u v h
  unfold load_table
  rw [List.map_cons, List.map_cons, List.map_nil]
  rw [← he]
  unfold aggregate keyList
  rw [show ([(upperName u, coerceDamage (RawVal.num q1)),
        (upperName u, coerceDamage (RawVal.num q2))].map Prod.fst) =
      [upperName u, upperName u] from rfl]
  rw [List.dedup_cons_of_mem (List.mem_singleton.mpr rfl),
    List.dedup_cons_of_not_mem (List.not_mem_nil _), List.dedup_nil]
  simp only [List.insertionSort, List.orderedInsert, List.map_cons, List.map_nil]
  simp only [totalFor, List.filter_cons, beq_self_eq_true, if_true, List.filter_nil,
    List.map_cons, List.map_nil, List.sum_cons, List.sum_nil, add_zero]
  rfl

/-- C6 witness: foo and FOO differ only in case and get the same canonical
key, and the two-row aggregation applied to aB and Ab with damages 3 and 4
yields the single row (AB, 7). -/
theorem case_insensitive_grouping_witness :
    differOnlyInCase ("foo") ("FOO") ∧ upperName ("foo") = upperName ("FOO") ∧
      differOnlyInCase ("aB") ("Ab") ∧
      aggregate (load_table [(("aB"), RawVal.num 3), (("Ab"), RawVal.num 4)]) =
        [(upperName ("aB"), ratTrunc 3 + ratTrunc 4)] := by
  have h1 : differOnlyInCase ("foo") ("FOO") :=
    List.Forall₂.cons (by decide)
      (List.Forall₂.cons (by decide) (List.Forall₂.cons (by decide) List.Forall₂.nil))
  have h2 : differOnlyInCase ("aB") ("Ab") :=
    List.Forall₂.cons (by decide) (List.Forall₂.cons (by decide) List.Forall₂.nil)
  exact ⟨h1, case_insensitive_grouping.1 _ _ h1, h2,
    case_insensitive_grouping.2.1 _ _ 3 4 h2⟩

/-- C7: the damage coercion sends parse failures and absent values to 0,
sends a parsed numeric value to its integer truncation (so no fractional
damage survives: 7/2 becomes 3 and -7/2 becomes -3), never raises an error
(it is a total function), and a row with non-numeric damage contributes 0 to
the total of its group. -/
theorem damage_coercion :
    coerceDamage RawVal.missing = 0 ∧ coerceDamage RawVal.malformed = 0 ∧
    (∀ q : ℚ, coerceDamage (RawVal.num q) = ratTrunc q) ∧
    ratTrunc (Rat.divInt 7 2) = 3 ∧ ratTrunc (Rat.divInt (-7) 2) = -3 ∧
    aggregate (load_table [(("A"), RawVal.num 5), (("a"), RawVal.malformed)]) =
      [(("A"), 5)] :=
  ⟨rfl, rfl, fun _ => rfl, by decide, by decide, by decide⟩

/-- C8: top-N selection returns the full row list when N = 0, returns the
full row list when N is at least its length (no error possible), and returns
exactly the first N rows in the established order when 0 < N < length. -/
theorem top_n_selection {α : Type} (rows : List α) (n : Nat) :
    (n = 0 → topN n rows = rows) ∧
    (rows.length ≤ n → topN n rows = rows) ∧
    (0 < n → n < rows.length →
      topN n rows = rows.take n ∧ (topN n rows).length = n) := by
  unfold topN
  refine ⟨?_, ?_, ?_⟩
  · intro h
    subst h
    rw [if_neg (lt_irrefl 0)]
  · intro h
    by_cases hn : 0 < n
    · rw [if_pos hn, List.take_of_length_le h]
    · rw [if_neg hn]
  · intro h1 h2
    rw [if_pos h1]
    exact ⟨rfl, by rw [List.length_take]; exact min_eq_left h2.le⟩

/-- C8 witness: the three top-N cases on the three-row list 10, 20, 30 with
N = 0, N = 5 and N = 2. -/
theorem top_n_selection_witness :
    topN 0 [10, 20, 30] = [10, 20, 30] ∧
      topN 5 [10, 20, 30] = [10, 20, 30] ∧
      (topN 2 [10, 20, 30] = List.take 2 [10, 20, 30] ∧
        (topN 2 [10, 20, 30]).length = 2) :=
  ⟨(top_n_selection [10, 20, 30] 0).1 rfl,
    (top_n_selection [10, 20, 30] 5).2.1 (by decide),
    (top_n_selection [10, 20, 30] 2).2.2 (by decide) (by decide)⟩

/-- C9: aggregation is invariant under the order of the input rows: two
input lists that are permutations of each other produce the same aggregate
table, in particular the same set of (canonical id, total damage) pairs. -/
theorem aggregate_order_invariant (l1 l2 : List (String × Int)) (h : l1.Perm l2) :
    aggregate l1 = aggregate l2 ∧
      ∀ pr : String × Int, pr ∈ aggregate l1 ↔ pr ∈ aggregate l2 := by
  have he : aggregate l1 = aggregate l2 := by
    unfold aggregate
    rw [keyList_perm h]
    exact List.map_congr_left (fun k _ => by rw [totalFor_perm h])
  exact ⟨he, fun pr => by rw [he]⟩

/-- C9 witness: the two orderings of the rows (a, 1), (b, 2) are permutations
of each other and aggregate identically. -/
theorem aggregate_order_invariant_witness :
    List.Perm [(("b"), (2 : Int)), (("a"), 1)] [(("a"), 1), (("b"), 2)] ∧
      aggregate [(("b"), 2), (("a"), 1)] = aggregate [(("a"), 1), (("b"), 2)] :=
  ⟨by decide, (aggregate_order_invariant _ _ (by decide)).1⟩

/-- C10: a comparison row with previous aggregate damage 0 and strictly
negative current aggregate damage (negative damage is never validated away
and flows through aggregation) gets pct_change 0 and the label same —
neither new nor down. -/
theorem negative_current_zero_prev (p l : List (String × Int)) (r : CompRow)
    (h : r ∈ compute_comparison p l) (h0 : r.prev_damage = 0)
    (hneg : r.last_damage < 0) :
    r.pct_change = Pct.fin 0 ∧ r.change = ("same") := by
  obtain ⟨_, _, hpct, hch⟩ := comp_mem_shape h
  have hrest := pct_row_rest h0 hneg.le
  exact ⟨by rw [hpct, hrest], by rw [hch, hrest]; decide⟩

/-- C10 witness: comparing A:0 against A:-5, the negative damage -5 flows
through aggregation and the row of A (prev 0, last -5) is classified same
with pct_change 0. -/
theorem negative_current_zero_prev_witness :
    (⟨("A"), 0, -5, Pct.fin 0, ("same")⟩ : CompRow) ∈
        compute_comparison [(("A"), 0)] [(("A"), -5)] ∧
      ((⟨("A"), 0, -5, Pct.fin 0, ("same")⟩ : CompRow).pct_change = Pct.fin 0 ∧
        (⟨("A"), 0, -5, Pct.fin 0, ("same")⟩ : CompRow).change = ("same")) :=
  ⟨by decide,
    negative_current_zero_prev [(("A"), 0)] [(("A"), -5)] _ (by decide)
      (by decide) (by decide)⟩
